import Mathlib

/-!
Shallow embedding of the `diamond-rs` crate (`src/lib.rs`): a Perl-style
diamond (`<>`) multi-source reader.  Sources are modelled as in-memory
buffered readers, i.e. plain byte lists (`Bytes`); a byte is a `Nat`.
The remaining-sources iterator (`I : Iterator<Item = io::Result<R>>` in the
Rust code) is modelled as a list of `Except IoErr` source values consumed
from the front, which captures its lazy single-pass nature.  I/O errors are
an abstract inductive `IoErr`.
-/

/-- Bytes of an in-memory source or of a caller's buffer. -/
abbrev Bytes := List Nat

/-- Abstract model of `std::io::Error` values surfaced by the library. -/
inductive IoErr : Type where
  | notFound : IoErr
  | permissionDenied : IoErr
  | invalidData : IoErr
  | readErr : Nat → IoErr
deriving DecidableEq, Repr

/-- Shortest prefix of the list that ends with the delimiter, or the whole
list when the delimiter does not occur: the bytes that a single
`BufRead::read_until` call appends. -/
def takeThrough (delim : Nat) : List Nat → List Nat
  | [] => []
  | b :: rest => if b = delim then [b] else b :: takeThrough delim rest

/-- Model of `std::io::BufRead::read_until(byte, buf)` on an in-memory
reader: append all bytes up to and including the delimiter (or up to EOF)
to `buf`, advance the reader, and return the number of bytes appended.
Result is `(count-or-error, reader state after, buffer after)`. -/
def bufReadUntil (byte : Nat) (r : Bytes) (buf : Bytes) :
    (Except IoErr Nat) × Bytes × Bytes :=
  let taken := takeThrough byte r
  (.ok taken.length, r.drop taken.length, buf ++ taken)

/-- Is `c` a UTF-8 continuation byte (`0x80..=0xBF`)? -/
def isCont (c : Nat) : Bool := 0x80 ≤ c && c ≤ 0xBF

/-- Standard UTF-8 validity of a byte sequence (rejecting overlong forms,
surrogates and values above `U+10FFFF`), as checked by
`std::str::from_utf8` inside `BufRead::read_line`. -/
def utf8Valid : List Nat → Bool
  | [] => true
  | b :: rest =>
    if b ≤ 0x7F then utf8Valid rest
    else if 0xC2 ≤ b && b ≤ 0xDF then
      match rest with
      | c1 :: r => isCont c1 && utf8Valid r
      | [] => false
    else if b = 0xE0 then
      match rest with
      | c1 :: c2 :: r => (0xA0 ≤ c1 && c1 ≤ 0xBF) && isCont c2 && utf8Valid r
      | _ => false
    else if (0xE1 ≤ b && b ≤ 0xEC) || (0xEE ≤ b && b ≤ 0xEF) then
      match rest with
      | c1 :: c2 :: r => isCont c1 && isCont c2 && utf8Valid r
      | _ => false
    else if b = 0xED then
      match rest with
      | c1 :: c2 :: r => (0x80 ≤ c1 && c1 ≤ 0x9F) && isCont c2 && utf8Valid r
      | _ => false
    else if b = 0xF0 then
      match rest with
      | c1 :: c2 :: c3 :: r =>
        (0x90 ≤ c1 && c1 ≤ 0xBF) && isCont c2 && isCont c3 && utf8Valid r
      | _ => false
    else if 0xF1 ≤ b && b ≤ 0xF3 then
      match rest with
      | c1 :: c2 :: c3 :: r => isCont c1 && isCont c2 && isCont c3 && utf8Valid r
      | _ => false
    else if b = 0xF4 then
      match rest with
      | c1 :: c2 :: c3 :: r =>
        (0x80 ≤ c1 && c1 ≤ 0x8F) && isCont c2 && isCont c3 && utf8Valid r
      | _ => false
    else false

/-- Model of `std::io::BufRead::read_line(buf)` on an in-memory reader:
`read_until(b"\n")` whose appended bytes must be valid UTF-8; on invalid
data the appended bytes are rolled back from the buffer (as
`append_to_string` does) and `InvalidData` is returned, the reader having
consumed the bytes either way. -/
def bufReadLine (r : Bytes) (buf : Bytes) : (Except IoErr Nat) × Bytes × Bytes :=
  let taken := takeThrough 10 r
  if utf8Valid taken then (.ok taken.length, r.drop taken.length, buf ++ taken)
  else (.error .invalidData, r.drop taken.length, buf)

/-- The inner diamond state, `struct DiamondInner<R, I> { current: Option<R>,
remaining: I }`, with the single-pass iterator `I` modelled as a list of
open results consumed from the front. -/
structure DiamondInner (σ : Type) : Type where
  current : Option σ
  remaining : List (Except IoErr σ)
deriving Repr

instance {ε σ : Type} [DecidableEq ε] [DecidableEq σ] : DecidableEq (Except ε σ) :=
  fun a b =>
    match a, b with
    | .ok x, .ok y => decidable_of_iff (x = y) (by simp)
    | .error e, .error e' => decidable_of_iff (e = e') (by simp)
    | .ok _, .error _ => isFalse (by simp)
    | .error _, .ok _ => isFalse (by simp)

instance {σ : Type} [DecidableEq σ] : DecidableEq (DiamondInner σ) :=
  fun d d' => by
    rcases d with ⟨c, r⟩
    rcases d' with ⟨c', r'⟩
    have : Decidable (c = c' ∧ r = r') := inferInstance
    exact decidable_of_iff (c = c' ∧ r = r') (by simp)

/-- The phase of `DiamondInner::read_inner` in which `current` is empty:
repeatedly pull the next open result from `remaining`; an open error is
propagated with `current` left empty; an opened source is read with `f`,
returned from if the read yields an error or a nonzero count, and dropped
(with the loop continuing) on a zero count; an exhausted `remaining`
yields `Ok(0)`.  `f r buf` returns `(count-or-error, reader after, buffer
after)`, modelling the `FnMut(&mut R) -> io::Result<usize>` closure that
also mutates the buffer it captures. -/
def readInnerGo {σ : Type} (f : σ → Bytes → (Except IoErr Nat) × σ × Bytes) :
    List (Except IoErr σ) → Bytes → (Except IoErr Nat) × DiamondInner σ × Bytes
  | [], buf => (.ok 0, ⟨none, []⟩, buf)
  | .error e :: rem, buf => (.error e, ⟨none, rem⟩, buf)
  | .ok r :: rem, buf =>
    match f r buf with
    | (.error e, r', buf') => (.error e, ⟨some r', rem⟩, buf')
    | (.ok n, r', buf') =>
      if n = 0 then readInnerGo f rem buf'
      else (.ok n, ⟨some r', rem⟩, buf')

/-- Model of `DiamondInner::read_inner`: run `f` against the current source
if one is open — returning on an error (source kept current) or a nonzero
count, and dropping the source on a zero count — then continue pulling
sources from `remaining` (`readInnerGo`). -/
def DiamondInner.read_inner {σ : Type} (d : DiamondInner σ)
    (f : σ → Bytes → (Except IoErr Nat) × σ × Bytes) (buf : Bytes) :
    (Except IoErr Nat) × DiamondInner σ × Bytes :=
  match d.current with
  | some r =>
    match f r buf with
    | (.error e, r', buf') => (.error e, ⟨some r', d.remaining⟩, buf')
    | (.ok n, r', buf') =>
      if n = 0 then readInnerGo f d.remaining buf'
      else (.ok n, ⟨some r', d.remaining⟩, buf')
  | none => readInnerGo f d.remaining buf

/-- Model of `DiamondInner::read_until` over in-memory sources:
`read_inner` with the source-level `BufRead::read_until`. -/
def DiamondInner.read_until (d : DiamondInner Bytes) (byte : Nat) (buf : Bytes) :
    (Except IoErr Nat) × DiamondInner Bytes × Bytes :=
  d.read_inner (fun r b => bufReadUntil byte r b) buf

/-- Model of `DiamondInner::read_line` over in-memory sources:
`read_inner` with the source-level `BufRead::read_line` (the caller's
`String` buffer is modelled by its UTF-8 bytes). -/
def DiamondInner.read_line (d : DiamondInner Bytes) (buf : Bytes) :
    (Except IoErr Nat) × DiamondInner Bytes × Bytes :=
  d.read_inner (fun r b => bufReadLine r b) buf

/-- Model of `DiamondInner::line_iter`'s step (the closure inside
`iter::from_fn`): call `read_line` on a fresh empty buffer; `Ok(0)` yields
`none` (end of iteration), `Ok(n)` yields the buffer, `Err(e)` yields the
error; the diamond state advances as `read_line` left it. -/
def lineIterNext (d : DiamondInner Bytes) :
    Option (Except IoErr Bytes) × DiamondInner Bytes :=
  match d.read_line [] with
  | (.ok 0, d', _) => (none, d')
  | (.ok _, d', buf') => (some (.ok buf'), d')
  | (.error e, d', _) => (some (.error e), d')

/-- The phase of `SingleStreamReader::fill_buf` in which `current` is empty:
pull open results from `remaining`, propagating an open error, skipping
sources whose peek buffer is empty, and returning the first non-empty peek
buffer; an exhausted `remaining` yields the empty buffer. -/
def fillBufGo : List (Except IoErr Bytes) → (Except IoErr Bytes) × DiamondInner Bytes
  | [] => (.ok [], ⟨none, []⟩)
  | .error e :: rem => (.error e, ⟨none, rem⟩)
  | .ok r :: rem => if r = [] then fillBufGo rem else (.ok r, ⟨some r, rem⟩)

/-- Model of `SingleStreamReader::fill_buf`: peek the current source and
return its bytes if non-empty (without consuming them); otherwise drop the
exhausted source and keep pulling sources from `remaining` (`fillBufGo`). -/
def SingleStreamReader.fill_buf (d : DiamondInner Bytes) :
    (Except IoErr Bytes) × DiamondInner Bytes :=
  match d.current with
  | some r => if r = [] then fillBufGo d.remaining else (.ok r, ⟨some r, d.remaining⟩)
  | none => fillBufGo d.remaining

/-- Model of `SingleStreamReader::consume`: advance the read cursor of the
current source by `amount` bytes; a no-op when no source is current. -/
def SingleStreamReader.consume (amount : Nat) (d : DiamondInner Bytes) :
    DiamondInner Bytes :=
  match d.current with
  | some r => ⟨some (r.drop amount), d.remaining⟩
  | none => d

/-- Model of `SingleStreamReader::read` into a caller buffer of capacity
`k`: fill, copy as many bytes as fit (`&[u8]::read` copies
`min(peek.length, k)` bytes), consume that many, and return them (the Rust
function returns the count; the model returns the bytes themselves, whose
length is the count). -/
def SingleStreamReader.read (k : Nat) (d : DiamondInner Bytes) :
    (Except IoErr Bytes) × DiamondInner Bytes :=
  match SingleStreamReader.fill_buf d with
  | (.error e, d') => (.error e, d')
  | (.ok peek, d') =>
    let out := peek.take k
    (.ok out, SingleStreamReader.consume out.length d')

/-- Repeated `SingleStreamReader::read` calls with capacity `k`,
concatenating the bytes read until a zero-byte read or an error, as
`Read::read_to_end` does; `fuel` bounds the number of iterations and
`none` reports its exhaustion. -/
def ssReadToEnd (k : Nat) :
    Nat → DiamondInner Bytes → Option ((Except IoErr Bytes) × DiamondInner Bytes)
  | 0, _ => none
  | fuel + 1, d =>
    match SingleStreamReader.read k d with
    | (.error e, d') => some (.error e, d')
    | (.ok [], d') => some (.ok [], d')
    | (.ok out, d') =>
      match ssReadToEnd k fuel d' with
      | some (.ok rest, d'') => some (.ok (out ++ rest), d'')
      | other => other

/-- Split a byte sequence into newline-terminated records, keeping the
newline bytes (the last record may lack one): what a line-splitting layer
such as repeated `BufRead::read_until(b"\n")` calls produces from a byte
stream. -/
def splitLinesKeep : List Nat → List (List Nat)
  | [] => []
  | b :: rest =>
    if b = 10 then [b] :: splitLinesKeep rest
    else
      match splitLinesKeep rest with
      | [] => [[b]]
      | l :: ls => (b :: l) :: ls

/-- Model of `struct Args`: the command-line token provider.  The state is
`Option` of the not-yet-consumed suffix of the fused argument iterator
(`none` before the first call).  `argv` is the ambient `env::args_os()`
list, program name included. -/
structure Args : Type where
  st : Option (List String)
deriving DecidableEq, Repr

/-- Model of `Args::next` (`argv` is the ambient `env::args_os()` list):
on the first call, skip the program name and yield the first argument, or
the synthesized `"-"` if there is none; afterwards, yield the stored fused
iterator's tokens until it is exhausted, then `none` forever. -/
def Args.next (argv : List String) : Args → Option String × Args
  | ⟨some []⟩ => (none, ⟨some []⟩)
  | ⟨some (t :: ts)⟩ => (some t, ⟨some ts⟩)
  | ⟨none⟩ =>
    match argv.tail with
    | [] => (some "-", ⟨some []⟩)
    | t :: ts => (some t, ⟨some ts⟩)

/-- Model of `Reader::open`: the token `"-"` opens standard input (the
ambient `stdin` bytes; infallible in the code), any other token is opened
through the ambient filesystem oracle `fs`, which yields the file's bytes
or the platform's open error. -/
def Reader.open' (fs : String → Except IoErr Bytes) (stdin : Bytes)
    (tok : String) : Except IoErr Bytes :=
  if tok = "-" then .ok stdin else fs tok

/-- Model of `Readers::<Args>::next`: pull the next token from `Args` and
map it through `Reader::open`. -/
def Readers.next (fs : String → Except IoErr Bytes) (stdin : Bytes)
    (argv : List String) (a : Args) : Option (Except IoErr Bytes) × Args :=
  match Args.next argv a with
  | (none, a') => (none, a')
  | (some tok, a') => (some (Reader.open' fs stdin tok), a')

/-- Concrete inputs of the spec's two-source scenario: source A with bytes
of "x\ny" (no trailing newline) and source B with bytes of "z\n". -/
def srcA : Bytes := [120, 10, 121]

/-- Bytes of "z\n", the second source of the spec's scenario. -/
def srcB : Bytes := [122, 10]

/-- Concrete filesystem oracle for the `[A, nonexistent, C]` scenario:
token "A" opens to "a\n", token "C" opens to "c\n", anything else fails
with `notFound`. -/
def fsABC : String → Except IoErr Bytes := fun tok =>
  if tok = "A" then .ok [97, 10]
  else if tok = "C" then .ok [99, 10]
  else .error .notFound

/-- The remaining-sources sequence produced by `Readers` for the token
sequence `[A, nonexistent, C]` over `fsABC`. -/
def remABC : List (Except IoErr Bytes) :=
  ["A", "nonexistent", "C"].map (Reader.open' fsABC [])

/-- Modelled from the spec: "A raw read operation is defined in terms of
fill+consume: it copies as much as fits from the filled peek buffer into
the caller's buffer and consumes exactly that many bytes."  The number of
bytes that fit into a caller buffer of capacity `k` out of a peek buffer
of `peek.length` bytes is `min peek.length k`; this definition follows
the spec's words and is compared against `SingleStreamReader.read`. -/
def rawReadSpec (k : Nat) (d : DiamondInner Bytes) :
    (Except IoErr Bytes) × DiamondInner Bytes :=
  match SingleStreamReader.fill_buf d with
  | (.error e, d') => (.error e, d')
  | (.ok peek, d') =>
    (.ok (peek.take (min peek.length k)),
      SingleStreamReader.consume (min peek.length k) d')

/-- C1: over sources `[A, B]` with A = "x\ny" and B = "z\n", successive
`read_line` calls into fresh buffers return "x\n" (count 2), then "y"
(count 1, no newline: A's end-of-source is a record boundary), then "z\n"
(count 2), then 0; each equation shows the diamond state threaded into the
next call. -/
theorem c1_read_line_sequence :
    (⟨none, [.ok srcA, .ok srcB]⟩ : DiamondInner Bytes).read_line []
        = (.ok 2, ⟨some [121], [.ok srcB]⟩, [120, 10]) ∧
    (⟨some [121], [.ok srcB]⟩ : DiamondInner Bytes).read_line []
        = (.ok 1, ⟨some [], [.ok srcB]⟩, [121]) ∧
    (⟨some [], [.ok srcB]⟩ : DiamondInner Bytes).read_line []
        = (.ok 2, ⟨some [], []⟩, [122, 10]) ∧
    (⟨some [], []⟩ : DiamondInner Bytes).read_line []
        = (.ok 0, ⟨none, []⟩, []) :=
  ⟨rfl, rfl, rfl, rfl⟩

/-- C5: a reader whose `current` slot is empty and whose remaining-sources
iterator is exhausted is permanently exhausted: `read_until` and
`read_line` return `Ok(0)` with the state (and buffer) unchanged, so every
subsequent call returns `Ok(0)` again and the state never transitions back
to having input. -/
theorem c5_exhausted_reads_zero :
    ∀ (delim : Nat) (buf : Bytes),
      (⟨none, []⟩ : DiamondInner Bytes).read_until delim buf
          = (.ok 0, ⟨none, []⟩, buf) ∧
      (⟨none, []⟩ : DiamondInner Bytes).read_line buf
          = (.ok 0, ⟨none, []⟩, buf) := by
  intro delim buf
  exact ⟨rfl, rfl⟩

/-- C6: when the command line holds no token beyond the program name,
`Args` synthesizes exactly one `"-"` token on its first pull and yields
nothing afterwards, so `Readers` produces exactly one source — standard
input — and nothing afterwards. -/
theorem c6_empty_args_yields_stdin :
    ∀ (fs : String → Except IoErr Bytes) (stdin : Bytes) (prog : String),
      Args.next [prog] ⟨none⟩ = (some "-", ⟨some []⟩) ∧
      Args.next [prog] ⟨some []⟩ = (none, ⟨some []⟩) ∧
      Readers.next fs stdin [prog] ⟨none⟩ = (some (.ok stdin), ⟨some []⟩) ∧
      Readers.next fs stdin [prog] ⟨some []⟩ = (none, ⟨some []⟩) := by
  intro fs stdin prog
  exact ⟨rfl, rfl, rfl, rfl⟩

/-- C7: when the read against the current source fails, `read_inner`
surfaces that exact error; the (possibly partially advanced) source stays
in the `current` slot — it is not discarded — and the remaining-sources
iterator is not pulled, so the caller can retry the very same read. -/
theorem c7_read_error_keeps_current :
    ∀ (σ : Type) (f : σ → Bytes → (Except IoErr Nat) × σ × Bytes)
      (r : σ) (rem : List (Except IoErr σ)) (buf buf' : Bytes)
      (e : IoErr) (r' : σ),
      f r buf = (.error e, r', buf') →
      (⟨some r, rem⟩ : DiamondInner σ).read_inner f buf
          = (.error e, ⟨some r', rem⟩, buf') := by
  intro σ f r rem buf buf' e r' h
  simp [DiamondInner.read_inner, h]

/-- Witness for C7 at a concrete failing source: a one-element source type
whose read always fails with `readErr 7`. -/
theorem c7_read_error_keeps_current_witness :
    (⟨some (), [.ok ()]⟩ : DiamondInner Unit).read_inner
        (fun _ b => (.error (.readErr 7), (), b)) [1, 2]
      = (.error (.readErr 7), ⟨some (), [.ok ()]⟩, [1, 2]) :=
  c7_read_error_keeps_current Unit (fun _ b => (.error (.readErr 7), (), b))
    () [.ok ()] [1, 2] [1, 2] (.readErr 7) () rfl

/-- C4: a failing open is reported exactly once: the failing call returns
the open error without touching the rest of the sequence (`current` stays
empty, `remaining` holds exactly the entries after the failing token), and
the next call behaves as if started on the next token of the single-pass
sequence — the failing token, already consumed by the iterator, is never
retried. -/
theorem c4_open_error_reported_once :
    ∀ (σ : Type) (f : σ → Bytes → (Except IoErr Nat) × σ × Bytes)
      (e : IoErr) (rem : List (Except IoErr σ)) (buf : Bytes),
      (⟨none, .error e :: rem⟩ : DiamondInner σ).read_inner f buf
          = (.error e, ⟨none, rem⟩, buf) ∧
      ∀ (r : σ),
        (⟨none, .ok r :: rem⟩ : DiamondInner σ).read_inner f buf
            = (⟨some r, rem⟩ : DiamondInner σ).read_inner f buf := by
  intro σ f e rem buf
  exact ⟨rfl, fun r => rfl⟩

/-- C3 counterexample: after the read that hits the failed open of
"nonexistent" (which leaves `current` empty and the open of "C" as the
sole remaining entry), the very next `read_line` call opens C and returns
exactly C's content "c\n" — so the content of C *is* reached after the
open failure, refuting the claim's final conjunct. -/
theorem c3_counterexample :
    (⟨some [], [Reader.open' fsABC [] "nonexistent", Reader.open' fsABC [] "C"]⟩
        : DiamondInner Bytes).read_line []
      = (.error .notFound, ⟨none, [.ok [99, 10]]⟩, []) ∧
    (⟨none, [.ok [99, 10]]⟩ : DiamondInner Bytes).read_line []
      = (.ok 2, ⟨some [], []⟩, [99, 10]) ∧
    fsABC "C" = .ok [99, 10] :=
  ⟨rfl, rfl, rfl⟩

/-- C3 amended: for `[A, nonexistent, C]`, the read over A succeeds and
returns normally; the read that needs to open "nonexistent" returns that
open error with the `current` slot empty (no dangling source) and A's
prior results untouched; C is not opened within the erroring call, but the
subsequent call — the sequence being single-pass past the failing token —
opens C and returns its content. -/
theorem c3_amended_open_error_then_next :
    (⟨none, remABC⟩ : DiamondInner Bytes).read_line []
      = (.ok 2, ⟨some [], [.error .notFound, .ok [99, 10]]⟩, [97, 10]) ∧
    (⟨some [], [.error .notFound, .ok [99, 10]]⟩ : DiamondInner Bytes).read_line []
      = (.error .notFound, ⟨none, [.ok [99, 10]]⟩, []) ∧
    (⟨none, [.ok [99, 10]]⟩ : DiamondInner Bytes).read_line []
      = (.ok 2, ⟨some [], []⟩, [99, 10]) :=
  ⟨rfl, rfl, rfl⟩

/-- In the `remaining`-walking phase, a returned count of `Ok(0)` happens
only at the terminal state: no source current and no source remaining. -/
theorem readInnerGo_ok_zero {σ : Type}
    (f : σ → Bytes → (Except IoErr Nat) × σ × Bytes) :
    ∀ (rem : List (Except IoErr σ)) (buf : Bytes) (d' : DiamondInner σ)
      (buf' : Bytes),
      readInnerGo f rem buf = (.ok 0, d', buf') → d' = ⟨none, []⟩ := by
  intro rem
  induction rem with
  | nil =>
    intro buf d' buf' h
    exact (congrArg (fun p => p.2.1) h).symm
  | cons head tail ih =>
    cases head with
    | error e =>
      intro buf d' buf' h
      exact absurd (congrArg (fun p => p.1) h) (by simp [readInnerGo])
    | ok r =>
      intro buf d' buf' h
      rcases hf : f r buf with ⟨res, r2, b2⟩
      cases res with
      | error e => simp [readInnerGo, hf] at h
      | ok n =>
        by_cases hn : n = 0
        · subst hn
          simp only [readInnerGo, hf, if_pos rfl] at h
          exact ih b2 d' buf' h
        · simp [readInnerGo, hf, hn] at h

/-- `read_inner` returns `Ok(0)` only in the terminal state: no source
current and no source remaining. -/
theorem read_inner_ok_zero {σ : Type} (d : DiamondInner σ)
    (f : σ → Bytes → (Except IoErr Nat) × σ × Bytes) (buf : Bytes)
    (d' : DiamondInner σ) (buf' : Bytes) :
    d.read_inner f buf = (.ok 0, d', buf') → d' = ⟨none, []⟩ := by
  rcases d with ⟨cur, rem⟩
  cases cur with
  | none =>
    intro h
    exact readInnerGo_ok_zero f rem buf d' buf' h
  | some r =>
    intro h
    rcases hf : f r buf with ⟨res, r2, b2⟩
    cases res with
    | error e => simp [DiamondInner.read_inner, hf] at h
    | ok n =>
      by_cases hn : n = 0
      · subst hn
        simp only [DiamondInner.read_inner, hf, if_pos rfl] at h
        exact readInnerGo_ok_zero f rem b2 d' buf' h
      · simp [DiamondInner.read_inner, hf, hn] at h

/-- A `none` yield of the line iterator leaves the reader in the terminal
exhausted state. -/
theorem lineIterNext_none (d d' : DiamondInner Bytes) :
    lineIterNext d = (none, d') → d' = ⟨none, []⟩ := by
  intro h
  rcases h2 : d.read_line [] with ⟨res, dd, bb⟩
  cases res with
  | error e => simp [lineIterNext, h2] at h
  | ok n =>
    cases n with
    | zero =>
      simp [lineIterNext, h2] at h
      have h2' : d.read_inner (fun r b => bufReadLine r b) [] = (.ok 0, dd, bb) := h2
      rw [← h]
      exact read_inner_ok_zero d (fun r b => bufReadLine r b) [] dd bb h2'
    | succ m => simp [lineIterNext, h2] at h

/-- C10: after the `line_iter` step yields an open error, the iterator is
not finished and does not repeat the error: the failing entry is gone from
`remaining`, and a step on a state whose next entry opens successfully
behaves exactly as a step with that source current — concretely, a
remaining source "b\n" then yields the line "b\n".  And once a step yields
`none`, the state is the terminal exhausted one, so every further step
yields `none` again. -/
theorem c10_line_iter_error_then_resume :
    ∀ (e : IoErr) (rem : List (Except IoErr Bytes)) (bs : Bytes),
      lineIterNext ⟨none, .error e :: rem⟩ = (some (.error e), ⟨none, rem⟩) ∧
      lineIterNext ⟨none, .ok bs :: rem⟩ = lineIterNext ⟨some bs, rem⟩ ∧
      lineIterNext ⟨none, [.ok [98, 10]]⟩ = (some (.ok [98, 10]), ⟨some [], []⟩) ∧
      ∀ (d d' : DiamondInner Bytes),
        lineIterNext d = (none, d') → d' = ⟨none, []⟩ ∧ lineIterNext d' = (none, d') := by
  intro e rem bs
  refine ⟨rfl, rfl, rfl, ?_⟩
  intro d d' h
  have hd := lineIterNext_none d d' h
  refine ⟨hd, ?_⟩
  rw [hd]
  rfl

/-- Witness for C10 at the concrete exhausted state. -/
theorem c10_line_iter_error_then_resume_witness :
    (⟨none, []⟩ : DiamondInner Bytes) = ⟨none, []⟩ ∧
    lineIterNext ⟨none, []⟩ = (none, ⟨none, []⟩) :=
  (c10_line_iter_error_then_resume .notFound [] []).2.2.2 ⟨none, []⟩ ⟨none, []⟩ rfl

/-- In the `remaining`-walking phase of `fill_buf`, an empty peek result
happens only at true end-of-everything: every walked entry was an opened
empty source and the final state is the terminal one. -/
theorem fillBufGo_ok_empty :
    ∀ (rem : List (Except IoErr Bytes)) (d0 : DiamondInner Bytes),
      fillBufGo rem = (.ok [], d0) →
      (∀ x ∈ rem, x = .ok ([] : Bytes)) ∧ d0 = ⟨none, []⟩ := by
  intro rem
  induction rem with
  | nil =>
    intro d0 h
    exact ⟨by simp, (congrArg (fun p => p.2) h).symm⟩
  | cons head tail ih =>
    cases head with
    | error e =>
      intro d0 h
      exact absurd (congrArg (fun p => p.1) h) (by simp [fillBufGo])
    | ok r =>
      intro d0 h
      by_cases hr : r = []
      · subst hr
        rw [show fillBufGo (.ok [] :: tail) = fillBufGo tail from by
          simp [fillBufGo]] at h
        obtain ⟨hmem, hd⟩ := ih d0 h
        refine ⟨?_, hd⟩
        intro x hx
        rcases List.mem_cons.mp hx with hx | hx
        · rw [hx]
        · exact hmem x hx
      · rw [show fillBufGo (.ok r :: tail) = (.ok r, ⟨some r, tail⟩) from by
          simp [fillBufGo, hr]] at h
        have := congrArg (fun p => p.1) h
        simp only at this
        exact absurd (Except.ok.inj this) hr

/-- `fill_buf` returns an empty peek buffer only once the current source
and every remaining source are exhausted, leaving the terminal state. -/
theorem fill_buf_ok_empty (d : DiamondInner Bytes) (d0 : DiamondInner Bytes) :
    SingleStreamReader.fill_buf d = (.ok [], d0) →
    (∀ bs, d.current = some bs → bs = []) ∧
    (∀ x ∈ d.remaining, x = .ok ([] : Bytes)) ∧ d0 = ⟨none, []⟩ := by
  rcases d with ⟨cur, rem⟩
  cases cur with
  | none =>
    intro h
    obtain ⟨hmem, hd⟩ := fillBufGo_ok_empty rem d0 h
    exact ⟨fun bs hbs => by simp at hbs, hmem, hd⟩
  | some r =>
    intro h
    by_cases hr : r = []
    · subst hr
      rw [show SingleStreamReader.fill_buf ⟨some [], rem⟩ = fillBufGo rem from by
        simp [SingleStreamReader.fill_buf]] at h
      obtain ⟨hmem, hd⟩ := fillBufGo_ok_empty rem d0 h
      refine ⟨?_, hmem, hd⟩
      intro bs hbs
      simp only at hbs
      exact (Option.some.inj hbs).symm
    · rw [show SingleStreamReader.fill_buf ⟨some r, rem⟩ = (.ok r, ⟨some r, rem⟩) from by
        simp [SingleStreamReader.fill_buf, hr]] at h
      have := congrArg (fun p => p.1) h
      simp only at this
      exact absurd (Except.ok.inj this) hr

/-- C2: reading the `reader()` stream of the two sources A = "x\ny" and
B = "z\n" to the end yields exactly the bytes of "x\nyz\n" — the
concatenation with no boundary artifact — whose line splitting is
["x\n", "yz\n"]; and with any positive caller capacity, a zero-byte read
happens only when the current source (if any) is empty and every remaining
entry is an exhausted open source, leaving the terminal state. -/
theorem c2_reader_consolidated_stream :
    ssReadToEnd 16 8 ⟨none, [.ok srcA, .ok srcB]⟩
        = some (.ok [120, 10, 121, 122, 10], ⟨none, []⟩) ∧
    splitLinesKeep [120, 10, 121, 122, 10] = [[120, 10], [121, 122, 10]] ∧
    ∀ (k : Nat) (d d' : DiamondInner Bytes),
      0 < k → SingleStreamReader.read k d = (.ok [], d') →
      (∀ bs, d.current = some bs → bs = []) ∧
      (∀ x ∈ d.remaining, x = .ok ([] : Bytes)) ∧ d' = ⟨none, []⟩ := by
  refine ⟨rfl, rfl, ?_⟩
  intro k d d' hk h
  rcases hfb : SingleStreamReader.fill_buf d with ⟨res, d0⟩
  cases res with
  | error e =>
    exfalso
    simp only [SingleStreamReader.read, hfb] at h
    exact absurd (congrArg (fun p => p.1) h) (by simp)
  | ok peek =>
    simp only [SingleStreamReader.read, hfb] at h
    have h1 : peek.take k = [] := by
      have := congrArg (fun p => p.1) h
      simp only at this
      exact Except.ok.inj this
    have h2 : SingleStreamReader.consume (peek.take k).length d0 = d' :=
      congrArg (fun p => p.2) h
    have hpeek : peek = [] := by
      rcases List.take_eq_nil_iff.mp h1 with hk0 | hp
      · exact absurd hk0 (Nat.pos_iff_ne_zero.mp hk)
      · exact hp
    have hfb' : SingleStreamReader.fill_buf d = (.ok [], d0) := by
      rw [hfb, hpeek]
    obtain ⟨pc, pr, pd⟩ := fill_buf_ok_empty d d0 hfb'
    refine ⟨pc, pr, ?_⟩
    rw [← h2, h1, pd]
    rfl

/-- Witness for C2 at a concrete state whose current source is empty and
whose only remaining entry is an exhausted open source. -/
theorem c2_reader_consolidated_stream_witness :
    0 < 1 ∧
    SingleStreamReader.read 1 ⟨some [], [.ok []]⟩ = (.ok [], ⟨none, []⟩) ∧
    (⟨none, []⟩ : DiamondInner Bytes) = ⟨none, []⟩ :=
  ⟨Nat.one_pos, rfl,
    (c2_reader_consolidated_stream.2.2 1 ⟨some [], [.ok []]⟩ ⟨none, []⟩
        Nat.one_pos rfl).2.2⟩

/-- Taking `min l.length k` elements is the same as taking `k`. -/
theorem take_min_length (l : Bytes) (k : Nat) :
    l.take (min l.length k) = l.take k := by
  rcases Nat.le_total l.length k with h | h
  · rw [Nat.min_eq_left h, List.take_length, List.take_of_length_le h]
  · rw [Nat.min_eq_right h]

/-- C8: on the consolidated stream, the raw read equals the fill+consume
composition described by the spec — copy the `min peek.length k` bytes
that fit and consume exactly that many — and consuming when no source is
current is a no-op (in particular consuming zero bytes), not an error. -/
theorem c8_read_refines_fill_consume :
    ∀ (k : Nat) (d : DiamondInner Bytes),
      SingleStreamReader.read k d = rawReadSpec k d ∧
      ∀ (n : Nat) (rem : List (Except IoErr Bytes)),
        SingleStreamReader.consume n ⟨none, rem⟩ = ⟨none, rem⟩ := by
  intro k d
  constructor
  · rcases hfb : SingleStreamReader.fill_buf d with ⟨res, d0⟩
    cases res with
    | error e => simp [SingleStreamReader.read, rawReadSpec, hfb]
    | ok peek =>
      simp only [SingleStreamReader.read, rawReadSpec, hfb]
      rw [Prod.mk.injEq]
      constructor
      · rw [take_min_length]
      · rw [List.length_take, Nat.min_comm]
  · intro n rem
    rfl

/-- In the `remaining`-walking phase of a `read_until`, the caller's buffer
only ever grows by an appended suffix whose length is the returned count
(an error leaves the buffer untouched). -/
theorem readInnerGo_read_until_appends (byte : Nat) :
    ∀ (rem : List (Except IoErr Bytes)) (buf : Bytes),
      ∃ app : Bytes,
        (readInnerGo (fun r b => bufReadUntil byte r b) rem buf).2.2 = buf ++ app ∧
        ((readInnerGo (fun r b => bufReadUntil byte r b) rem buf).1
              = .ok app.length ∨
          ∃ e, (readInnerGo (fun r b => bufReadUntil byte r b) rem buf).1
              = .error e ∧ app = []) := by
  intro rem
  induction rem with
  | nil =>
    intro buf
    exact ⟨[], by simp [readInnerGo], Or.inl (by simp [readInnerGo])⟩
  | cons head tail ih =>
    cases head with
    | error e =>
      intro buf
      exact ⟨[], by simp [readInnerGo], Or.inr ⟨e, by simp [readInnerGo], rfl⟩⟩
    | ok r =>
      intro buf
      by_cases h0 : (takeThrough byte r).length = 0
      · have hempt : takeThrough byte r = [] := List.length_eq_zero.mp h0
        have hstep : readInnerGo (fun r b => bufReadUntil byte r b)
              (.ok r :: tail) buf
            = readInnerGo (fun r b => bufReadUntil byte r b) tail buf := by
          simp [readInnerGo, bufReadUntil, hempt]
        rw [hstep]
        exact ih buf
      · refine ⟨takeThrough byte r, ?_, Or.inl ?_⟩
        · simp [readInnerGo, bufReadUntil, h0]
        · simp [readInnerGo, bufReadUntil, h0]

/-- C9: `read_until` appends: whatever bytes the caller's buffer already
holds are left in place, the bytes read are appended after them, and an
`Ok` count equals the number of bytes appended (an error appends nothing)
— so two successive calls without clearing accumulate both reads, as the
concrete pair over the source "a\nb\n" shows. -/
theorem c9_read_until_appends :
    (∀ (byte : Nat) (d : DiamondInner Bytes) (buf : Bytes),
      ∃ app : Bytes,
        (d.read_until byte buf).2.2 = buf ++ app ∧
        ((d.read_until byte buf).1 = .ok app.length ∨
          ∃ e, (d.read_until byte buf).1 = .error e ∧ app = [])) ∧
    (⟨none, [.ok [97, 10, 98, 10]]⟩ : DiamondInner Bytes).read_until 10 []
        = (.ok 2, ⟨some [98, 10], []⟩, [97, 10]) ∧
    (⟨some [98, 10], []⟩ : DiamondInner Bytes).read_until 10 [97, 10]
        = (.ok 2, ⟨some [], []⟩, [97, 10, 98, 10]) := by
  refine ⟨?_, rfl, rfl⟩
  intro byte d buf
  rcases d with ⟨cur, rem⟩
  cases cur with
  | none =>
    exact readInnerGo_read_until_appends byte rem buf
  | some r =>
    by_cases h0 : (takeThrough byte r).length = 0
    · have hempt : takeThrough byte r = [] := List.length_eq_zero.mp h0
      have hstep : (⟨some r, rem⟩ : DiamondInner Bytes).read_until byte buf
          = readInnerGo (fun r b => bufReadUntil byte r b) rem buf := by
        simp [DiamondInner.read_until, DiamondInner.read_inner, bufReadUntil,
          hempt]
      rw [hstep]
      exact readInnerGo_read_until_appends byte rem buf
    · refine ⟨takeThrough byte r, ?_, Or.inl ?_⟩
      · simp [DiamondInner.read_until, DiamondInner.read_inner, bufReadUntil, h0]
      · simp [DiamondInner.read_until, DiamondInner.read_inner, bufReadUntil, h0]
